import Mathlib

/-
Verification of the utility routines of a Dreamer-style model-based RL
codebase (`utils.py`): the λ-return estimator `lambda_return`, the
imagination rollout `imagine_ahead` (with its `flatten` preprocessing and
softplus std-dev floor), and the gradient Freeze/Activate parameter scopes.

Modelling conventions:
* `lambda_return` acts elementwise over the batch dimension, so its tensors
  are embedded as time-indexed lists of per-element scalars (`List ℚ`); the
  elementwise tensor arithmetic becomes `List.zipWith`.  Rational scalars let
  concrete instances be decided by computation; the floating-point rounding of
  the original is not modelled.
* `torch.stack` raises a RuntimeError when applied to an empty list of
  tensors, and indexing an empty Python list raises IndexError; both failure
  modes are embedded as `Option.none`.
* In `imagine_ahead` a single time-step tensor (batch × feature) is a
  `List (List ℝ)`; the policy and transition networks are opaque functions
  supplied as structure fields, and the `torch.randn_like` draw is an
  explicit stream `noise : ℕ → Tensor2` consumed one entry per step, which is
  how a seeded random source is embedded.
-/

namespace DreamerUtils

/-! ## λ-return estimator (`lambda_return` in `utils.py`)

Source:
```
next_values = torch.cat([value_pred[1:], bootstrap[None]], 0)
discount_tensor = discount * torch.ones_like(imged_reward)
inputs = imged_reward + discount_tensor * next_values * (1 - lambda_)
last = bootstrap
indices = reversed(range(len(inputs)))
outputs = []
for index in indices:
    inp, disc = inputs[index], discount_tensor[index]
    last = inp + disc*lambda_*last
    outputs.append(last)
outputs = list(reversed(outputs))
outputs = torch.stack(outputs, 0)
```
-/

/-- The backward loop of `lambda_return`: iterating `index` from the last
position down to 0 with `last = inputs[index] + discount*lambda_*last`
(where `last` starts at `bootstrap`), appending each `last`, and finally
reversing, produces the list whose entry at `index` is
`inputs[index] + discount*lambda_*last'` with `last'` the value produced at
position `index+1` (or `bootstrap` past the end).  The recursion below
processes the list right-to-left and already emits forward time order:
`tail.headD bootstrap` is exactly the `last` carried into position `index`. -/
def lambdaLoop (discount lambda_ bootstrap : ℚ) : List ℚ → List ℚ
  | [] => []
  | inp :: rest =>
      let tail := lambdaLoop discount lambda_ bootstrap rest
      (inp + discount * lambda_ * tail.headD bootstrap) :: tail

/-- Embedding of `lambda_return(imged_reward, value_pred, bootstrap, discount,
lambda_)`.  `torch.cat([value_pred[1:], bootstrap[None]], 0)` is
`value_pred.drop 1 ++ [bootstrap]`; the elementwise tensor expression
`imged_reward + discount_tensor * next_values * (1 - lambda_)` (with
`discount_tensor = discount * ones_like(imged_reward)`) is a `zipWith`
(the caller-guaranteed precondition is that reward and value sequences are
aligned, i.e. have equal length); the final `torch.stack(outputs, 0)` raises
on an empty list, embedded as `none`. -/
def lambda_return (imged_reward value_pred : List ℚ) (bootstrap : ℚ)
    (discount : ℚ := 99/100) (lambda_ : ℚ := 95/100) : Option (List ℚ) :=
  let next_values := value_pred.drop 1 ++ [bootstrap]
  let inputs := List.zipWith (fun r nv => r + discount * nv * (1 - lambda_))
      imged_reward next_values
  let outputs := lambdaLoop discount lambda_ bootstrap inputs
  if outputs.isEmpty then none else some outputs

/-! Spec-side description of the same computation, written from the spec's
words: `next_values[i] = V[i+1]` for `i < N-1` and `next_values[N-1] =
bootstrap`; `target[i] = R[i] + γ * next_values[i] * (1 - λ)`; then the
backward recurrence `last = bootstrap`, `last = target[i] + γ*λ*last`,
`G[i] = last`, output in forward time order. -/

/-- Spec-side `next_values`: `V[i+1]` below the last index, `bootstrap` at
the last index (`N` is the sequence length). -/
def next_values_spec (V : List ℚ) (bootstrap : ℚ) (N i : ℕ) : ℚ :=
  if i < N - 1 then V.getD (i + 1) 0 else bootstrap

/-- Spec-side `target[i] = R[i] + γ * next_values[i] * (1 - λ)`. -/
def target_spec (R V : List ℚ) (bootstrap γ lam : ℚ) (i : ℕ) : ℚ :=
  R.getD i 0 + γ * next_values_spec V bootstrap R.length i * (1 - lam)

/-- Spec-side λ-return value `G[i]`, by the backward recurrence
`G[i] = target[i] + γ*λ*G[i+1]`, terminated with `bootstrap` in place of
`G[N]` at the last index. -/
def G_spec (R V : List ℚ) (bootstrap γ lam : ℚ) (i : ℕ) : ℚ :=
  if _h : i + 1 < R.length then
    target_spec R V bootstrap γ lam i + γ * lam * G_spec R V bootstrap γ lam (i + 1)
  else
    target_spec R V bootstrap γ lam i + γ * lam * bootstrap
termination_by R.length - i
decreasing_by omega

/-- The backward loop preserves the sequence length. -/
theorem lambdaLoop_length (discount lambda_ bootstrap : ℚ) (xs : List ℚ) :
    (lambdaLoop discount lambda_ bootstrap xs).length = xs.length := by
  induction xs with
  | nil => rfl
  | cons x xs ih => simp [lambdaLoop, ih]

/-- Elementwise characterisation of the backward loop: each output entry is
its input entry plus `discount*lambda_` times the next output entry (the
bootstrap past the end). -/
theorem lambdaLoop_getD (discount lambda_ bootstrap : ℚ) :
    ∀ (xs : List ℚ) (i : ℕ), i < xs.length →
      (lambdaLoop discount lambda_ bootstrap xs).getD i 0 =
        xs.getD i 0 + discount * lambda_ *
          (if i + 1 < xs.length then
            (lambdaLoop discount lambda_ bootstrap xs).getD (i + 1) 0
          else bootstrap) := by
  intro xs
  induction xs with
  | nil => intro i hi; simp at hi
  | cons x xs ih =>
      intro i hi
      cases i with
      | zero =>
          cases xs with
          | nil => simp [lambdaLoop]
          | cons y ys =>
              simp only [lambdaLoop, List.getD_cons_zero, List.length_cons]
              have : (0 : ℕ) + 1 < ys.length + 1 + 1 := by omega
              rw [if_pos this]
              have hlen : (lambdaLoop discount lambda_ bootstrap (y :: ys)) =
                  (y + discount * lambda_ *
                    (lambdaLoop discount lambda_ bootstrap ys).headD bootstrap) ::
                    lambdaLoop discount lambda_ bootstrap ys := rfl
              simp [hlen, List.headD]
      | succ j =>
          simp only [List.length_cons] at hi
          have hj : j < xs.length := by omega
          have := ih j hj
          simp only [lambdaLoop, List.getD_cons_succ, List.length_cons]
          rw [this]
          by_cases hlt : j + 1 < xs.length
          · rw [if_pos hlt, if_pos (by omega : j + 1 + 1 < xs.length + 1)]
          · rw [if_neg hlt, if_neg (by omega : ¬ j + 1 + 1 < xs.length + 1)]

/-- Entry `i` of the embedded `torch.cat([value_pred[1:], bootstrap[None]], 0)`
agrees with the spec-side `next_values`. -/
theorem next_values_getD (V : List ℚ) (b : ℚ) (i : ℕ) (hi : i < V.length) :
    (V.drop 1 ++ [b]).getD i 0 = next_values_spec V b V.length i := by
  rw [List.getD_eq_getElem?_getD, List.getElem?_append, next_values_spec]
  simp only [List.length_drop]
  by_cases h : i < V.length - 1
  · rw [if_pos h, if_pos h, List.getElem?_drop, List.getD_eq_getElem?_getD,
      Nat.add_comm 1 i]
  · rw [if_neg h, if_neg h]
    have h0 : i - (V.length - 1) = 0 := by omega
    rw [h0]
    rfl

/-- Length of the elementwise `inputs` tensor built by `lambda_return`. -/
theorem lr_inputs_length (R V : List ℚ) (b γ lam : ℚ)
    (hlen : R.length = V.length) (hN : 1 ≤ R.length) :
    (List.zipWith (fun r nv => r + γ * nv * (1 - lam)) R
      (V.drop 1 ++ [b])).length = R.length := by
  simp only [List.length_zipWith, List.length_append, List.length_drop,
    List.length_cons, List.length_nil]
  omega

/-- Entry `i` of the embedded `inputs` tensor agrees with the spec-side
`target[i] = R[i] + γ * next_values[i] * (1 - λ)`. -/
theorem lr_inputs_getD (R V : List ℚ) (b γ lam : ℚ) (i : ℕ)
    (hlen : R.length = V.length) (hi : i < R.length) :
    (List.zipWith (fun r nv => r + γ * nv * (1 - lam)) R
      (V.drop 1 ++ [b])).getD i 0 = target_spec R V b γ lam i := by
  have hN : 1 ≤ R.length := by omega
  have hzl := lr_inputs_length R V b γ lam hlen hN
  have hiz : i < (List.zipWith (fun r nv => r + γ * nv * (1 - lam)) R
      (V.drop 1 ++ [b])).length := by omega
  have hnv : i < (V.drop 1 ++ [b]).length := by
    simp only [List.length_append, List.length_drop, List.length_cons,
      List.length_nil]
    omega
  rw [List.getD_eq_getElem (_) 0 hiz, List.getElem_zipWith, target_spec]
  have h1 : (V.drop 1 ++ [b])[i] = (V.drop 1 ++ [b]).getD i 0 :=
    (List.getD_eq_getElem (_) 0 hnv).symm
  have h2 : R[i] = R.getD i 0 := (List.getD_eq_getElem R 0 hi).symm
  rw [h1, h2, next_values_getD V b i (by omega), hlen]

/-- For aligned, nonempty inputs `lambda_return` succeeds and returns the
backward loop applied to the `inputs` tensor, a sequence of the same length
as the rewards. -/
theorem lambda_return_some (R V : List ℚ) (b γ lam : ℚ)
    (hlen : R.length = V.length) (hN : 1 ≤ R.length) :
    lambda_return R V b γ lam =
      some (lambdaLoop γ lam b (List.zipWith (fun r nv => r + γ * nv * (1 - lam))
        R (V.drop 1 ++ [b]))) ∧
    (lambdaLoop γ lam b (List.zipWith (fun r nv => r + γ * nv * (1 - lam))
        R (V.drop 1 ++ [b]))).length = R.length := by
  have hout : (lambdaLoop γ lam b (List.zipWith (fun r nv => r + γ * nv * (1 - lam))
      R (V.drop 1 ++ [b]))).length = R.length := by
    rw [lambdaLoop_length]
    exact lr_inputs_length R V b γ lam hlen hN
  refine ⟨?_, hout⟩
  have hne : (lambdaLoop γ lam b (List.zipWith (fun r nv => r + γ * nv * (1 - lam))
      R (V.drop 1 ++ [b]))).isEmpty = false := by
    rw [List.isEmpty_eq_false_iff_exists_mem]
    rcases List.exists_mem_of_length_pos (by omega : 0 <
      (lambdaLoop γ lam b (List.zipWith (fun r nv => r + γ * nv * (1 - lam))
        R (V.drop 1 ++ [b]))).length) with ⟨x, hx⟩
    exact ⟨x, hx⟩
  show (if (lambdaLoop γ lam b (List.zipWith (fun r nv => r + γ * nv * (1 - lam))
      R (V.drop 1 ++ [b]))).isEmpty then none else some _) = some _
  rw [hne]
  rfl

/-- C1: for every reward sequence `R` of length `N ≥ 1`, aligned value
sequence `V`, bootstrap value `b`, discount `γ` and blending factor `λ`,
`lambda_return` returns the sequence `G` defined by the spec:
`next_values[i] = V[i+1]` for `i < N-1` and `next_values[N-1] = b`;
`target[i] = R[i] + γ*next_values[i]*(1-λ)`; and the backward recurrence
`last = b`, then for `i` from `N-1` down to `0`, `last = target[i] + γ*λ*last`
and `G[i] = last`, with the output in forward time order. -/
theorem claim_C1_lambda_return_matches_spec (R V : List ℚ) (b γ lam : ℚ)
    (hlen : R.length = V.length) (hN : 1 ≤ R.length) :
    ∃ G, lambda_return R V b γ lam = some G ∧ G.length = R.length ∧
      ∀ i, i < R.length → G.getD i 0 = G_spec R V b γ lam i := by
  obtain ⟨hsome, hlen2⟩ := lambda_return_some R V b γ lam hlen hN
  refine ⟨_, hsome, hlen2, ?_⟩
  have hinlen := lr_inputs_length R V b γ lam hlen hN
  have main : ∀ k i, R.length - i ≤ k → i < R.length →
      (lambdaLoop γ lam b (List.zipWith (fun r nv => r + γ * nv * (1 - lam)) R
        (V.drop 1 ++ [b]))).getD i 0 = G_spec R V b γ lam i := by
    intro k
    induction k with
    | zero => intro i h1 h2; omega
    | succ k ih =>
        intro i h1 h2
        rw [lambdaLoop_getD γ lam b _ i (by omega),
          lr_inputs_getD R V b γ lam i hlen h2, hinlen, G_spec]
        by_cases hlt : i + 1 < R.length
        · rw [if_pos hlt, dif_pos hlt, ih (i + 1) (by omega) hlt]
        · rw [if_neg hlt, dif_neg hlt]
  intro i hi
  exact main R.length i (by omega) hi

/-- Witness for C1, at the spec's regression vector `R = [1,1,1]`,
`V = [2,2,2]`, `b = 3`, `γ = 9/10`, `λ = 1/2`. -/
theorem claim_C1_witness :
    ([(1 : ℚ), 1, 1].length = [(2 : ℚ), 2, 2].length ∧
      1 ≤ [(1 : ℚ), 1, 1].length) ∧
    (∃ G, lambda_return [1, 1, 1] [2, 2, 2] 3 (9/10) (1/2) = some G ∧
      G.length = [(1 : ℚ), 1, 1].length ∧
      ∀ i, i < [(1 : ℚ), 1, 1].length →
        G.getD i 0 = G_spec [1, 1, 1] [2, 2, 2] 3 (9/10) (1/2) i) :=
  ⟨⟨rfl, by decide⟩,
    claim_C1_lambda_return_matches_spec [1, 1, 1] [2, 2, 2] 3 (9/10) (1/2)
      rfl (by decide)⟩

/-- With `λ = 1` the factor `(1 - λ)` vanishes, so the `inputs` tensor is the
reward sequence itself (given the aligned-length precondition). -/
theorem lr_inputs_lambda_one (γ : ℚ) :
    ∀ (R nv : List ℚ), R.length ≤ nv.length →
      List.zipWith (fun r x => r + γ * x * (1 - (1 : ℚ))) R nv = R := by
  intro R
  induction R with
  | nil => intro nv _; simp
  | cons r rs ih =>
      intro nv h
      cases nv with
      | nil => simp at h
      | cons x xs =>
          simp only [List.zipWith_cons_cons, List.length_cons] at *
          rw [ih xs (by omega)]
          norm_num

/-- Discounted Monte Carlo return of a reward suffix: back-substitution of
rewards terminated by the bootstrap value. -/
def mcReturn (γ bootstrap : ℚ) : List ℚ → ℚ
  | [] => bootstrap
  | r :: rest => r + γ * mcReturn γ bootstrap rest

/-- The head of the backward loop at `λ = 1` (or the bootstrap when the list
is empty) is the Monte Carlo return of the whole list. -/
theorem lambdaLoop_one_headD (γ b : ℚ) :
    ∀ l : List ℚ, (lambdaLoop γ 1 b l).headD b = mcReturn γ b l := by
  intro l
  induction l with
  | nil => rfl
  | cons r rest ih =>
      show r + γ * 1 * (lambdaLoop γ 1 b rest).headD b = mcReturn γ b (r :: rest)
      rw [ih, mcReturn, mul_one]

/-- At `λ = 1` every entry of the backward loop is the Monte Carlo return of
the corresponding input suffix. -/
theorem lambdaLoop_one_getD (γ b : ℚ) :
    ∀ (l : List ℚ) (i : ℕ), i < l.length →
      (lambdaLoop γ 1 b l).getD i 0 = mcReturn γ b (l.drop i) := by
  intro l
  induction l with
  | nil => intro i hi; simp at hi
  | cons r rest ih =>
      intro i hi
      cases i with
      | zero =>
          show r + γ * 1 * (lambdaLoop γ 1 b rest).headD b = mcReturn γ b (r :: rest)
          rw [lambdaLoop_one_headD, mcReturn, mul_one]
      | succ j =>
          simp only [List.length_cons] at hi
          show (lambdaLoop γ 1 b rest).getD j 0 = mcReturn γ b (rest.drop j)
          exact ih j (by omega)

/-- Closed form of the Monte Carlo return: a geometric sum of the rewards
plus the discounted bootstrap. -/
theorem mcReturn_eq_sum (γ b : ℚ) :
    ∀ l : List ℚ,
      mcReturn γ b l = (∑ j in Finset.range l.length, γ ^ j * l.getD j 0)
        + γ ^ l.length * b := by
  intro l
  induction l with
  | nil => simp [mcReturn]
  | cons r rest ih =>
      have hsum : γ * ∑ j in Finset.range rest.length, γ ^ j * rest.getD j 0
          = ∑ j in Finset.range rest.length, γ ^ j * γ * rest.getD j 0 := by
        rw [Finset.mul_sum]
        exact Finset.sum_congr rfl fun j _ => by ring
      rw [mcReturn, ih, List.length_cons, Finset.sum_range_succ']
      simp only [List.getD_cons_succ, List.getD_cons_zero, pow_zero, one_mul,
        pow_succ]
      rw [mul_add, hsum]
      ring

/-- Entry `j` of a dropped prefix. -/
theorem getD_drop (l : List ℚ) (i j : ℕ) :
    (l.drop i).getD j 0 = l.getD (i + j) 0 := by
  rw [List.getD_eq_getElem?_getD, List.getD_eq_getElem?_getD,
    List.getElem?_drop]

/-- C5: for every reward sequence `R` of length `N ≥ 1` with aligned values
`V` and bootstrap `b`, with `λ = 1` the output of `lambda_return` satisfies
`G[i] = Σ_{j=i}^{N-1} γ^(j-i) * R[j] + γ^(N-i) * b` for every valid index `i`
(pure discounted Monte Carlo return). -/
theorem claim_C5_lambda_return_monte_carlo (R V : List ℚ) (b γ : ℚ)
    (hlen : R.length = V.length) (hN : 1 ≤ R.length) :
    ∃ G, lambda_return R V b γ 1 = some G ∧ G.length = R.length ∧
      ∀ i, i < R.length →
        G.getD i 0 = (∑ j in Finset.Ico i R.length, γ ^ (j - i) * R.getD j 0)
          + γ ^ (R.length - i) * b := by
  obtain ⟨hsome, hlen2⟩ := lambda_return_some R V b γ 1 hlen hN
  rw [lr_inputs_lambda_one γ R (V.drop 1 ++ [b])
    (by simp only [List.length_append, List.length_drop, List.length_cons,
      List.length_nil]; omega)] at hsome hlen2
  refine ⟨_, hsome, hlen2, ?_⟩
  intro i hi
  rw [lambdaLoop_one_getD γ b R i hi, mcReturn_eq_sum, List.length_drop,
    Finset.sum_Ico_eq_sum_range]
  congr 1
  refine Finset.sum_congr rfl fun j _ => ?_
  have hji : i + j - i = j := by omega
  rw [getD_drop, hji]

/-- Witness for C5 at `R = [1,1,1]`, `V = [2,2,2]`, `b = 3`, `γ = 9/10`. -/
theorem claim_C5_witness :
    ([(1 : ℚ), 1, 1].length = [(2 : ℚ), 2, 2].length ∧
      1 ≤ [(1 : ℚ), 1, 1].length) ∧
    (∃ G, lambda_return [1, 1, 1] [2, 2, 2] 3 (9/10) 1 = some G ∧
      G.length = [(1 : ℚ), 1, 1].length ∧
      ∀ i, i < [(1 : ℚ), 1, 1].length →
        G.getD i 0 = (∑ j in Finset.Ico i [(1 : ℚ), 1, 1].length,
            (9/10 : ℚ) ^ (j - i) * [(1 : ℚ), 1, 1].getD j 0)
          + (9/10 : ℚ) ^ ([(1 : ℚ), 1, 1].length - i) * 3) :=
  ⟨⟨rfl, by decide⟩,
    claim_C5_lambda_return_monte_carlo [1, 1, 1] [2, 2, 2] 3 (9/10)
      rfl (by decide)⟩

/-- With `λ = 0` the recurrence multiplier `discount*λ` vanishes, so the
backward loop is the identity. -/
theorem lambdaLoop_lambda_zero (γ b : ℚ) :
    ∀ l : List ℚ, lambdaLoop γ 0 b l = l := by
  intro l
  induction l with
  | nil => rfl
  | cons r rest ih =>
      show (r + γ * 0 * (lambdaLoop γ 0 b rest).headD b) :: lambdaLoop γ 0 b rest
        = r :: rest
      rw [ih, mul_zero, zero_mul, add_zero]

/-- C6: for every reward sequence `R` of length `N ≥ 1` with aligned values
`V` and bootstrap `b`, with `λ = 0` the output of `lambda_return` satisfies
`G[i] = R[i] + γ * next_values[i]` exactly for every `i`, where
`next_values[i] = V[i+1]` for `i < N-1` and `next_values[N-1] = b` (one-step
bootstrapped return). -/
theorem claim_C6_lambda_return_one_step (R V : List ℚ) (b γ : ℚ)
    (hlen : R.length = V.length) (hN : 1 ≤ R.length) :
    ∃ G, lambda_return R V b γ 0 = some G ∧ G.length = R.length ∧
      ∀ i, i < R.length →
        G.getD i 0 = R.getD i 0 + γ * next_values_spec V b R.length i := by
  obtain ⟨hsome, hlen2⟩ := lambda_return_some R V b γ 0 hlen hN
  refine ⟨_, hsome, hlen2, ?_⟩
  intro i hi
  rw [lambdaLoop_lambda_zero, lr_inputs_getD R V b γ 0 i hlen hi, target_spec]
  ring

/-- Witness for C6 at `R = [1,1,1]`, `V = [2,2,2]`, `b = 3`, `γ = 9/10`. -/
theorem claim_C6_witness :
    ([(1 : ℚ), 1, 1].length = [(2 : ℚ), 2, 2].length ∧
      1 ≤ [(1 : ℚ), 1, 1].length) ∧
    (∃ G, lambda_return [1, 1, 1] [2, 2, 2] 3 (9/10) 0 = some G ∧
      G.length = [(1 : ℚ), 1, 1].length ∧
      ∀ i, i < [(1 : ℚ), 1, 1].length →
        G.getD i 0 = [(1 : ℚ), 1, 1].getD i 0
          + (9/10 : ℚ) * next_values_spec [2, 2, 2] 3 [(1 : ℚ), 1, 1].length i) :=
  ⟨⟨rfl, by decide⟩,
    claim_C6_lambda_return_one_step [1, 1, 1] [2, 2, 2] 3 (9/10)
      rfl (by decide)⟩

/-- C10: called with an empty reward sequence (`N = 0`), `lambda_return`
raises an error — the final stacking of the empty output list fails — rather
than returning an empty return sequence; the guarantee that the output has
the same length as the input reward sequence holds for `N ≥ 1`. -/
theorem claim_C10_lambda_return_empty (b γ lam : ℚ) :
    lambda_return [] [] b γ lam = none ∧
    (∀ (R V : List ℚ), R.length = V.length → 1 ≤ R.length →
      ∃ G, lambda_return R V b γ lam = some G ∧ G.length = R.length) := by
  constructor
  · rfl
  · intro R V hlen hN
    obtain ⟨hsome, hlen2⟩ := lambda_return_some R V b γ lam hlen hN
    exact ⟨_, hsome, hlen2⟩

/-- Witness for C10 at `b = 3`, `γ = 9/10`, `λ = 1/2`, and the nonempty
instance `R = V = [1]`. -/
theorem claim_C10_witness :
    (lambda_return [] [] 3 (9/10) (1/2) = none) ∧
    (∃ G, lambda_return [1] [1] 3 (9/10) (1/2) = some G ∧
      G.length = [(1 : ℚ)].length) :=
  ⟨(claim_C10_lambda_return_empty 3 (9/10) (1/2)).1,
    (claim_C10_lambda_return_empty 3 (9/10) (1/2)).2 [1] [1] rfl (by decide)⟩

/-! ## Imagination rollout (`imagine_ahead` in `utils.py`)

Source of the loop body (`t` ranges over `0 .. T-2`):
```
_state = prior_states[t]
actions = policy.get_action(beliefs[t].detach(), _state.detach())
hidden = transition_model.act_fn(
    transition_model.fc_embed_state_action(torch.cat([_state, actions], dim=1)))
beliefs[t + 1] = transition_model.rnn(hidden, beliefs[t])
hidden = transition_model.act_fn(
    transition_model.fc_embed_belief_prior(beliefs[t + 1]))
prior_means[t + 1], _prior_std_dev = torch.chunk(
    transition_model.fc_state_prior(hidden), 2, dim=1)
prior_std_devs[t + 1] = F.softplus(_prior_std_dev) + transition_model.min_std_dev
prior_states[t + 1] = prior_means[t + 1] + prior_std_devs[t + 1] * torch.randn_like(...)
```
finished by `torch.stack(xs[1:], dim=0)` on each of the four buffers.
-/

/-- A single time-step tensor of the rollout: a batch of feature rows
(`batch × feature`). -/
abbrev Tensor2 := List (List ℝ)

/-- Embedding of `x.detach()`: same values; the blocking of gradient flow is
not part of the value-level model. -/
def detach (x : Tensor2) : Tensor2 := x

/-- Embedding of `torch.cat([x, y], dim=1)`: rows concatenated featurewise. -/
def cat1 (x y : Tensor2) : Tensor2 := List.zipWith (· ++ ·) x y

/-- Embedding of `torch.chunk(x, 2, dim=1)`: each row is split into a first
chunk of `⌈f/2⌉` features and the remainder (the rows of a rectangular
tensor all have length `x.size(1)`, so using each row's own length agrees
with the torch semantics). -/
def chunk2 (x : Tensor2) : Tensor2 × Tensor2 :=
  (x.map fun r => r.take ((r.length + 1) / 2),
   x.map fun r => r.drop ((r.length + 1) / 2))

/-- Embedding of `F.softplus`: `softplus x = log(1 + exp x)`. -/
noncomputable def softplus (x : ℝ) : ℝ := Real.log (1 + Real.exp x)

/-- Elementwise map over a step tensor. -/
def tmap (f : ℝ → ℝ) (x : Tensor2) : Tensor2 := x.map (List.map f)

/-- Elementwise sum of step tensors. -/
noncomputable def tadd (x y : Tensor2) : Tensor2 :=
  List.zipWith (List.zipWith (· + ·)) x y

/-- Elementwise product of step tensors. -/
noncomputable def tmul (x y : Tensor2) : Tensor2 :=
  List.zipWith (List.zipWith (· * ·)) x y

/-- The policy ("actor") network, an opaque capability:
`get_action(belief, state)`. -/
structure Policy where
  get_action : Tensor2 → Tensor2 → Tensor2

/-- The recurrent state-space transition model: opaque network layers plus
the configured minimum std-dev floor. -/
structure TransitionModel where
  act_fn : Tensor2 → Tensor2
  fc_embed_state_action : Tensor2 → Tensor2
  rnn : Tensor2 → Tensor2 → Tensor2
  fc_embed_belief_prior : Tensor2 → Tensor2
  fc_state_prior : Tensor2 → Tensor2
  min_std_dev : ℝ

/-- The body of the rollout loop at step `t`: from `(beliefs[t],
prior_states[t])` it computes the tuple `(beliefs[t+1], prior_states[t+1],
prior_means[t+1], prior_std_devs[t+1])`.  The `torch.randn_like` draw of
step `t` is `noise t`, one entry of the explicit random stream. -/
noncomputable def imagineStep (policy : Policy) (tm : TransitionModel)
    (noise : ℕ → Tensor2) (t : ℕ) (belief state : Tensor2) :
    Tensor2 × Tensor2 × Tensor2 × Tensor2 :=
  let actions := policy.get_action (detach belief) (detach state)
  let hidden := tm.act_fn (tm.fc_embed_state_action (cat1 state actions))
  let belief1 := tm.rnn hidden belief
  let hidden1 := tm.act_fn (tm.fc_embed_belief_prior belief1)
  let mean := (chunk2 (tm.fc_state_prior hidden1)).1
  let rawStd := (chunk2 (tm.fc_state_prior hidden1)).2
  let stdDev := tmap (fun x => softplus x + tm.min_std_dev) rawStd
  let state1 := tadd mean (tmul stdDev (noise t))
  (belief1, state1, mean, stdDev)

/-- Entry `t` of the `beliefs` and `prior_states` buffers: index 0 holds the
(flattened) initial belief/state, and index `t+1` is produced by the loop
body at step `t`. -/
noncomputable def rolloutBS (policy : Policy) (tm : TransitionModel)
    (noise : ℕ → Tensor2) (b0 s0 : Tensor2) : ℕ → Tensor2 × Tensor2
  | 0 => (b0, s0)
  | t + 1 =>
      let prev := rolloutBS policy tm noise b0 s0 t
      let r := imagineStep policy tm noise t prev.1 prev.2
      (r.1, r.2.1)

/-- Value-level `flatten` for the rollout's rank-3 inputs (leading dim ×
batch × feature): `x.view([-1] + list(x.size()[2:]))` merges the two leading
dimensions, which on a rank-3 tensor is concatenation of the per-slice
batches. -/
def flatten (x : List Tensor2) : Tensor2 := List.flatten x

/-- Shape-level semantics of `flatten`, i.e. of
`x.view([-1] + list(x.size()[2:]))`, on an arbitrary tensor shape (all
dimensions assumed positive so the inferred `-1` is the quotient of the
element count by the kept trailing sizes): the first two dimensions merge
into their product; on a shape of rank ≤ 1 the single inferred dimension
holds every element. -/
def flattenShape : List ℕ → List ℕ
  | a :: b :: rest => a * b :: rest
  | s => [s.prod]

/-- Embedding of `imagine_ahead(prev_state, prev_belief, policy,
transition_model, planning_horizon)`.  With `T = 0` the write
`beliefs[0] = prev_belief` indexes an empty buffer list and raises
IndexError (`none`); the four buffers are then filled at indices `1 .. T-1`
by the loop body, and `torch.stack(buffer[1:], dim=0)` raises a RuntimeError
when that slice is empty (`none`), i.e. when `T = 1`. -/
noncomputable def imagine_ahead (prev_state prev_belief : List Tensor2)
    (policy : Policy) (transition_model : TransitionModel)
    (noise : ℕ → Tensor2) (planning_horizon : ℕ := 12) :
    Option (List Tensor2 × List Tensor2 × List Tensor2 × List Tensor2) :=
  let s0 := flatten prev_state
  let b0 := flatten prev_belief
  if planning_horizon = 0 then
    none
  else
    let steps := (List.range (planning_horizon - 1)).map fun t =>
      imagineStep policy transition_model noise t
        (rolloutBS policy transition_model noise b0 s0 t).1
        (rolloutBS policy transition_model noise b0 s0 t).2
    if steps.isEmpty then
      none
    else
      some (steps.map (fun r => r.1), steps.map (fun r => r.2.1),
        steps.map (fun r => r.2.2.1), steps.map (fun r => r.2.2.2))

/-- C2: for every horizon `T ≥ 2`, `imagine_ahead` returns exactly four
ordered sequences (beliefs, sampled states, means, std-devs), each of length
`T-1`, and entry `i` of each corresponds to time step `i+1` of the rollout
recurrence — in particular entry 0 is time step 1, so the initial belief and
state passed in are not part of the outputs. -/
theorem claim_C2_imagine_ahead_shape (prev_state prev_belief : List Tensor2)
    (policy : Policy) (tm : TransitionModel) (noise : ℕ → Tensor2) (T : ℕ)
    (hT : 2 ≤ T) :
    ∃ bs ss ms ds,
      imagine_ahead prev_state prev_belief policy tm noise T =
        some (bs, ss, ms, ds) ∧
      bs.length = T - 1 ∧ ss.length = T - 1 ∧ ms.length = T - 1 ∧
      ds.length = T - 1 ∧
      ∀ i, i < T - 1 →
        bs.getD i [] = (rolloutBS policy tm noise (flatten prev_belief)
            (flatten prev_state) (i + 1)).1 ∧
        ss.getD i [] = (rolloutBS policy tm noise (flatten prev_belief)
            (flatten prev_state) (i + 1)).2 ∧
        ms.getD i [] = (imagineStep policy tm noise i
            (rolloutBS policy tm noise (flatten prev_belief)
              (flatten prev_state) i).1
            (rolloutBS policy tm noise (flatten prev_belief)
              (flatten prev_state) i).2).2.2.1 ∧
        ds.getD i [] = (imagineStep policy tm noise i
            (rolloutBS policy tm noise (flatten prev_belief)
              (flatten prev_state) i).1
            (rolloutBS policy tm noise (flatten prev_belief)
              (flatten prev_state) i).2).2.2.2 := by
  have hT0 : ¬ T = 0 := by omega
  set b0 := flatten prev_belief with hb0
  set s0 := flatten prev_state with hs0
  set steps := (List.range (T - 1)).map (fun t =>
    imagineStep policy tm noise t (rolloutBS policy tm noise b0 s0 t).1
      (rolloutBS policy tm noise b0 s0 t).2) with hsteps
  have hslen : steps.length = T - 1 := by rw [hsteps]; simp
  have hne : steps.isEmpty = false := by
    cases hs : steps with
    | nil => rw [hs] at hslen; simp at hslen; omega
    | cons a l => rfl
  have hsome : imagine_ahead prev_state prev_belief policy tm noise T =
      some (steps.map (fun r => r.1), steps.map (fun r => r.2.1),
        steps.map (fun r => r.2.2.1), steps.map (fun r => r.2.2.2)) := by
    show (if T = 0 then none else
      if steps.isEmpty then none else
        some (steps.map (fun r => r.1), steps.map (fun r => r.2.1),
          steps.map (fun r => r.2.2.1), steps.map (fun r => r.2.2.2))) = _
    rw [if_neg hT0, hne]
    rfl
  refine ⟨_, _, _, _, hsome, by simp [hslen], by simp [hslen], by simp [hslen],
    by simp [hslen], ?_⟩
  intro i hi
  have hi' : i < steps.length := by omega
  have hstep : steps.getD i default = imagineStep policy tm noise i
      (rolloutBS policy tm noise b0 s0 i).1
      (rolloutBS policy tm noise b0 s0 i).2 := by
    rw [List.getD_eq_getElem?_getD, hsteps, List.getElem?_map,
      List.getElem?_range hi]
    rfl
  have hmapD : ∀ (f : Tensor2 × Tensor2 × Tensor2 × Tensor2 → Tensor2),
      (steps.map f).getD i [] = f (steps.getD i default) := by
    intro f
    rw [List.getD_eq_getElem?_getD, List.getElem?_map,
      List.getD_eq_getElem _ _ hi', List.getElem?_eq_getElem hi']
    rfl
  refine ⟨?_, ?_, ?_, ?_⟩
  · rw [hmapD, hstep]; rfl
  · rw [hmapD, hstep]; rfl
  · rw [hmapD, hstep]
  · rw [hmapD, hstep]

/-- A concrete policy used to instantiate the rollout theorems: it always
returns a one-element batch with one zero feature. -/
noncomputable def cPolicy : Policy := ⟨fun _ _ => [[0]]⟩

/-- A concrete transition model used to instantiate the rollout theorems:
constant layers whose prior head emits a two-feature row (mean `0`, raw
std-dev `0`) and a zero minimum-std-dev floor. -/
noncomputable def cTM : TransitionModel :=
  ⟨id, fun _ => [[0]], fun _ _ => [[0]], fun _ => [[0]], fun _ => [[0, 0]], 0⟩

/-- A concrete constant random stream. -/
noncomputable def cNoise : ℕ → Tensor2 := fun _ => [[0]]

/-- Witness for C2, at horizon `T = 3` with the concrete policy, transition
model and noise stream. -/
theorem claim_C2_witness :
    2 ≤ 3 ∧
    (∃ bs ss ms ds,
      imagine_ahead [] [] cPolicy cTM cNoise 3 = some (bs, ss, ms, ds) ∧
      bs.length = 3 - 1 ∧ ss.length = 3 - 1 ∧ ms.length = 3 - 1 ∧
      ds.length = 3 - 1 ∧
      ∀ i, i < 3 - 1 →
        bs.getD i [] = (rolloutBS cPolicy cTM cNoise (flatten [])
            (flatten []) (i + 1)).1 ∧
        ss.getD i [] = (rolloutBS cPolicy cTM cNoise (flatten [])
            (flatten []) (i + 1)).2 ∧
        ms.getD i [] = (imagineStep cPolicy cTM cNoise i
            (rolloutBS cPolicy cTM cNoise (flatten []) (flatten []) i).1
            (rolloutBS cPolicy cTM cNoise (flatten []) (flatten []) i).2).2.2.1 ∧
        ds.getD i [] = (imagineStep cPolicy cTM cNoise i
            (rolloutBS cPolicy cTM cNoise (flatten []) (flatten []) i).1
            (rolloutBS cPolicy cTM cNoise (flatten []) (flatten []) i).2).2.2.2) :=
  ⟨by decide, claim_C2_imagine_ahead_shape [] [] cPolicy cTM cNoise 3 (by decide)⟩

/-- C3 counterexample: at horizon `T = 1` the slices `buffer[1:]` are empty
and `torch.stack` on an empty list raises a RuntimeError, so the call does
not return four empty sequences — contrary to the claim that the outputs are
empty and no error is raised. -/
theorem claim_C3_counterexample :
    ¬ imagine_ahead [] [] cPolicy cTM cNoise 1 = some ([], [], [], []) := by
  intro h
  have hnone : imagine_ahead [] [] cPolicy cTM cNoise 1 = none := rfl
  rw [hnone] at h
  exact Option.noConfusion h

/-- C3 amended: when `imagine_ahead` is called with horizon `T = 1`, the
loop body never runs and the final `torch.stack` of the four empty buffer
slices raises an error, so no output sequences are returned (outputs are
nonempty only for `T ≥ 2`). -/
theorem claim_C3_horizon_one_raises (prev_state prev_belief : List Tensor2)
    (policy : Policy) (tm : TransitionModel) (noise : ℕ → Tensor2) :
    imagine_ahead prev_state prev_belief policy tm noise 1 = none := rfl

/-- C4 counterexample: on the rank-4 shape `[2, 2, 2, 3]`,
`view([-1] + list(size()[2:]))` produces the rank-3 shape `[4, 2, 3]`, not a
two-dimensional result — contrary to the claim that for every input tensor
the flattened result is two-dimensional. -/
theorem claim_C4_counterexample :
    ¬ (flattenShape [2, 2, 2, 3]).length = 2 := by decide

/-- C4 amended: `flatten` collapses exactly the first two leading dimensions
of its input into their product, keeping every trailing dimension; hence for
a rank-3 input (one extra leading batch dimension before batch × feature)
the result is two-dimensional with the feature dimension preserved, but a
rank-`r` input yields rank `r-1` in general. -/
theorem claim_C4_flatten_merges_first_two (a b : ℕ) (rest : List ℕ) :
    flattenShape (a :: b :: rest) = a * b :: rest ∧
    (flattenShape (a :: b :: rest)).length = rest.length + 1 ∧
    ∀ f : ℕ, flattenShape [a, b, f] = [a * b, f] :=
  ⟨rfl, rfl, fun _ => rfl⟩

/-- C7: every std-dev entry produced by `imagine_ahead` equals
`softplus raw + min_std_dev` for some raw network output and therefore
strictly exceeds the configured minimum-std-dev floor `min_std_dev`; when
the floor is nonnegative the entry is strictly positive (never zero or
negative) — for every time step and every batch element of every rollout
that returns outputs. -/
theorem claim_C7_std_dev_floor (prev_state prev_belief : List Tensor2)
    (policy : Policy) (tm : TransitionModel) (noise : ℕ → Tensor2) (T : ℕ)
    (bs ss ms ds : List Tensor2)
    (hsome : imagine_ahead prev_state prev_belief policy tm noise T =
      some (bs, ss, ms, ds)) :
    ∀ d ∈ ds, ∀ row ∈ d, ∀ x ∈ row,
      (∃ raw, x = softplus raw + tm.min_std_dev) ∧
      tm.min_std_dev < x ∧ (0 ≤ tm.min_std_dev → 0 < x) := by
  by_cases hT0 : T = 0
  · rw [hT0] at hsome
    have hnone : imagine_ahead prev_state prev_belief policy tm noise 0 =
      none := rfl
    rw [hnone] at hsome
    exact Option.noConfusion hsome
  · set b0 := flatten prev_belief
    set s0 := flatten prev_state
    set steps := (List.range (T - 1)).map (fun t =>
      imagineStep policy tm noise t (rolloutBS policy tm noise b0 s0 t).1
        (rolloutBS policy tm noise b0 s0 t).2) with hsteps
    have hunfold : imagine_ahead prev_state prev_belief policy tm noise T =
        (if steps.isEmpty then none else
          some (steps.map (fun r => r.1), steps.map (fun r => r.2.1),
            steps.map (fun r => r.2.2.1), steps.map (fun r => r.2.2.2))) := by
      show (if T = 0 then none else _) = _
      rw [if_neg hT0]
    rw [hunfold] at hsome
    by_cases hne : steps.isEmpty
    · rw [if_pos hne] at hsome
      exact Option.noConfusion hsome
    · rw [if_neg hne] at hsome
      have htup := Option.some.inj hsome
      have hds : ds = steps.map (fun r => r.2.2.2) :=
        (congrArg (fun q => q.2.2.2) htup).symm
      subst hds
      intro d hd row hrow x hx
      obtain ⟨r, hr, rfl⟩ := List.mem_map.mp hd
      rw [hsteps] at hr
      obtain ⟨t, _, rfl⟩ := List.mem_map.mp hr
      obtain ⟨raw, hraw⟩ : ∃ raw : Tensor2,
          (imagineStep policy tm noise t
            (rolloutBS policy tm noise b0 s0 t).1
            (rolloutBS policy tm noise b0 s0 t).2).2.2.2 =
          tmap (fun y => softplus y + tm.min_std_dev) raw := ⟨_, rfl⟩
      rw [hraw] at hrow
      simp only [tmap] at hrow
      obtain ⟨rrow, _, rfl⟩ := List.mem_map.mp hrow
      obtain ⟨y, _, rfl⟩ := List.mem_map.mp hx
      have hsp : 0 < softplus y := by
        have hexp := Real.exp_pos y
        have h1 : (1 : ℝ) < 1 + Real.exp y := by linarith
        exact Real.log_pos h1
      refine ⟨⟨y, rfl⟩, ?_, ?_⟩
      · show tm.min_std_dev < softplus y + tm.min_std_dev
        linarith
      · intro h0
        show 0 < softplus y + tm.min_std_dev
        linarith

/-- Witness for C7 at `T = 3` with the concrete policy, transition model
(floor `0`) and noise stream; the returned std-dev tensors hold the entry
`softplus 0 + 0`. -/
theorem claim_C7_witness :
    (imagine_ahead [] [] cPolicy cTM cNoise 3 =
      some ([[[(0 : ℝ)]], [[(0 : ℝ)]]],
        [[[(0 : ℝ) + (softplus 0 + 0) * 0]], [[(0 : ℝ) + (softplus 0 + 0) * 0]]],
        [[[(0 : ℝ)]], [[(0 : ℝ)]]],
        [[[softplus 0 + 0]], [[softplus 0 + 0]]])) ∧
    (∀ d ∈ ([[[softplus 0 + 0]], [[softplus 0 + 0]]] : List Tensor2),
      ∀ row ∈ d, ∀ x ∈ row,
        (∃ raw, x = softplus raw + cTM.min_std_dev) ∧
        cTM.min_std_dev < x ∧ (0 ≤ cTM.min_std_dev → 0 < x)) :=
  ⟨rfl,
    claim_C7_std_dev_floor [] [] cPolicy cTM cNoise 3
      [[[(0 : ℝ)]], [[(0 : ℝ)]]]
      [[[(0 : ℝ) + (softplus 0 + 0) * 0]], [[(0 : ℝ) + (softplus 0 + 0) * 0]]]
      [[[(0 : ℝ)]], [[(0 : ℝ)]]]
      [[[softplus 0 + 0]], [[softplus 0 + 0]]] rfl⟩

/-- The loop body reads the random stream only at its own step index. -/
theorem imagineStep_noise_congr (policy : Policy) (tm : TransitionModel)
    (noise1 noise2 : ℕ → Tensor2) (t : ℕ) (h : noise1 t = noise2 t)
    (belief state : Tensor2) :
    imagineStep policy tm noise1 t belief state =
      imagineStep policy tm noise2 t belief state := by
  unfold imagineStep
  rw [h]

/-- The belief/state recurrence reads the random stream only at indices
below its step index. -/
theorem rolloutBS_noise_congr (policy : Policy) (tm : TransitionModel)
    (noise1 noise2 : ℕ → Tensor2) (b0 s0 : Tensor2) :
    ∀ t, (∀ i, i < t → noise1 i = noise2 i) →
      rolloutBS policy tm noise1 b0 s0 t =
        rolloutBS policy tm noise2 b0 s0 t := by
  intro t
  induction t with
  | zero => intro _; rfl
  | succ t ih =>
      intro h
      simp only [rolloutBS]
      rw [ih (fun i hi => h i (Nat.lt_succ_of_lt hi)),
        imagineStep_noise_congr policy tm noise1 noise2 t
          (h t (Nat.lt_succ_self t))]

/-- C9: with the random stream agreeing on every index a horizon-`T` rollout
consumes (the seeded case) and the policy and transition model given as
fixed deterministic functions, two runs of `imagine_ahead` on the same
initial belief and state produce identical output sequences: the rollout is
a deterministic function of its inputs plus the random stream. -/
theorem claim_C9_rollout_deterministic (prev_state prev_belief : List Tensor2)
    (policy : Policy) (tm : TransitionModel) (noise1 noise2 : ℕ → Tensor2)
    (T : ℕ) (h : ∀ i, i < T - 1 → noise1 i = noise2 i) :
    imagine_ahead prev_state prev_belief policy tm noise1 T =
      imagine_ahead prev_state prev_belief policy tm noise2 T := by
  have hmap : (List.range (T - 1)).map (fun t =>
      imagineStep policy tm noise1 t
        (rolloutBS policy tm noise1 (flatten prev_belief)
          (flatten prev_state) t).1
        (rolloutBS policy tm noise1 (flatten prev_belief)
          (flatten prev_state) t).2) =
    (List.range (T - 1)).map (fun t =>
      imagineStep policy tm noise2 t
        (rolloutBS policy tm noise2 (flatten prev_belief)
          (flatten prev_state) t).1
        (rolloutBS policy tm noise2 (flatten prev_belief)
          (flatten prev_state) t).2) := by
    refine List.map_congr_left fun t ht => ?_
    have ht2 : t < T - 1 := List.mem_range.mp ht
    rw [rolloutBS_noise_congr policy tm noise1 noise2 _ _ t
        (fun i hi => h i (by omega)),
      imagineStep_noise_congr policy tm noise1 noise2 t (h t ht2)]
  simp only [imagine_ahead]
  rw [hmap]

/-- A second concrete random stream: it agrees with `cNoise` on indices
below 2 and differs beyond them. -/
noncomputable def cNoiseB : ℕ → Tensor2 := fun i => if i < 2 then [[0]] else [[1]]

/-- Witness for C9: the streams `cNoise` and `cNoiseB` agree on the indices
consumed at horizon 3, so the two rollouts coincide. -/
theorem claim_C9_witness :
    imagine_ahead [] [] cPolicy cTM cNoise 3 =
      imagine_ahead [] [] cPolicy cTM cNoiseB 3 :=
  claim_C9_rollout_deterministic [] [] cPolicy cTM cNoise cNoiseB 3
    (by
      intro i hi
      simp only [cNoise, cNoiseB]
      rw [if_pos (by omega : i < 2)])

/-! ## Gradient Freeze/Activate scopes
(`FreezeParameters`, `ActivateParameters`, `get_parameters` in `utils.py`)

A parameter is represented by its `requires_grad` flag; a module by the list
of its parameters' flags; the mutable flag state of the whole module set by
the flattened flag list in the stable order `get_parameters` enumerates
(module order, then parameter order).  The scope body is an arbitrary
function from the entered flag state to the flag state it leaves behind plus
whether it raised an exception; the `with` statement runs `__exit__` in both
cases. -/

/-- `get_parameters(modules)`: the concatenation of the parameter (flag)
lists of the supplied modules, in order. -/
def get_parameters (modules : List (List Bool)) : List Bool :=
  List.flatten modules

/-- `__enter__` of the two scopes: assign every parameter's flag the target
value (`False` for `FreezeParameters`, `True` for `ActivateParameters`). -/
def setFlags (target : Bool) (flags : List Bool) : List Bool :=
  flags.map fun _ => target

/-- `__exit__`: `for i, param in enumerate(get_parameters(self.modules)):
param.requires_grad = self.param_states[i]` — walk the current parameter
enumeration and the snapshot in step, overwriting each flag with its
snapshot entry (the flag the body left behind is discarded); should the
enumeration have outgrown the snapshot, `self.param_states[i]` raises
IndexError, embedded as `none`. -/
def restoreFlags : List Bool → List Bool → Option (List Bool)
  | _, [] => some []
  | [], _ :: _ => none
  | s :: snap, _ :: fs => (restoreFlags snap fs).map (s :: ·)

/-- One run of a parameter scope: `__init__` snapshots the current flags
(`self.param_states`), `__enter__` sets every flag to `target`, the body
transforms the flag state and reports whether it raised, and `__exit__`
restores the snapshot in either case.  Returns the final flag state and
whether the body raised. -/
def runParamScope (target : Bool) (flags : List Bool)
    (body : List Bool → List Bool × Bool) : Option (List Bool) × Bool :=
  let param_states := flags
  let entered := setFlags target flags
  let after := body entered
  (restoreFlags param_states after.1, after.2)

/-- `with FreezeParameters(modules): body` — target flag `False`. -/
def FreezeParameters (modules : List (List Bool))
    (body : List Bool → List Bool × Bool) : Option (List Bool) × Bool :=
  runParamScope false (get_parameters modules) body

/-- `with ActivateParameters(modules): body` — target flag `True`. -/
def ActivateParameters (modules : List (List Bool))
    (body : List Bool → List Bool × Bool) : Option (List Bool) × Bool :=
  runParamScope true (get_parameters modules) body

/-- Element-wise restoration of a same-length snapshot recovers exactly the
snapshot. -/
theorem restoreFlags_eq_snapshot :
    ∀ (snap fs : List Bool), fs.length = snap.length →
      restoreFlags snap fs = some snap := by
  intro snap
  induction snap with
  | nil =>
      intro fs h
      cases fs with
      | nil => rfl
      | cons a l => simp at h
  | cons s snap ih =>
      intro fs h
      cases fs with
      | nil => simp at h
      | cons a l =>
          simp only [List.length_cons] at h
          show (restoreFlags snap l).map (s :: ·) = some (s :: snap)
          rw [ih l (by omega)]
          rfl

/-- C8: for every set of modules with arbitrary initial requires-grad flags
and every scope body that keeps the parameter enumeration stable (the flag
list it leaves behind has the unchanged length), entering and then exiting a
`FreezeParameters` or an `ActivateParameters` scope — whether the body
completed normally or raised (either value of the raised component) —
restores every parameter's flag to exactly its pre-scope value. -/
theorem claim_C8_scope_round_trip (modules : List (List Bool))
    (body : List Bool → List Bool × Bool)
    (hfreeze : (body (setFlags false (get_parameters modules))).1.length =
      (get_parameters modules).length)
    (hact : (body (setFlags true (get_parameters modules))).1.length =
      (get_parameters modules).length) :
    (FreezeParameters modules body).1 = some (get_parameters modules) ∧
    (ActivateParameters modules body).1 = some (get_parameters modules) :=
  ⟨restoreFlags_eq_snapshot _ _ hfreeze, restoreFlags_eq_snapshot _ _ hact⟩

/-- A concrete scope body for the C8 witness: it flips every flag it can see
and then raises. -/
def cScopeBody : List Bool → List Bool × Bool :=
  fun fs => (fs.map fun x => !x, true)

/-- Witness for C8: two modules with mixed initial flags and a body that
mutates the flags and raises; both scopes restore the initial flags. -/
theorem claim_C8_witness :
    ((cScopeBody (setFlags false (get_parameters [[true, false], [true]]))).1.length =
      (get_parameters [[true, false], [true]]).length ∧
     (cScopeBody (setFlags true (get_parameters [[true, false], [true]]))).1.length =
      (get_parameters [[true, false], [true]]).length) ∧
    ((FreezeParameters [[true, false], [true]] cScopeBody).1 =
      some (get_parameters [[true, false], [true]]) ∧
     (ActivateParameters [[true, false], [true]] cScopeBody).1 =
      some (get_parameters [[true, false], [true]])) :=
  ⟨⟨by decide, by decide⟩,
    claim_C8_scope_round_trip [[true, false], [true]] cScopeBody
      (by decide) (by decide)⟩
